import Mathlib

/-!
# Supply invariants of `x/supply/keeper/invariants.go`

A shallow embedding of the supply-invariant checkers: the account
aggregator, the supplier record checker (`SupplierInvariants`), the total
supply reconciler (`TotalSupplyInvariant`) and their composition
(`AllInvariants`).  The coin-vector arithmetic (`sdk.Coins`,
`sdk.DecCoins`) lives outside the verified source tree, so it is modelled
from the specification of Coin Vectors: an ordered-by-denomination mapping
from denomination strings to non-negative integers, with per-denomination
addition that merges entries and drops zero results.
-/

namespace Supply

/-- Modelled from the spec: strict lexicographic (bytewise) order on the
character data of two denomination strings, used to keep Coin Vectors
ordered by denomination. -/
def lexLtb : List Char → List Char → Bool
  | [], [] => false
  | [], _ :: _ => true
  | _ :: _, [] => false
  | a :: as, b :: bs =>
    decide (a.toNat < b.toNat) || (decide (a.toNat = b.toNat) && lexLtb as bs)

/-- Strict order on denomination strings. -/
def denomLtb (a b : String) : Bool := lexLtb a.data b.data

/-- A single coin: a denomination and a non-negative amount. -/
structure Coin where
  denom : String
  amount : Nat
  deriving DecidableEq

/-- Modelled from the spec: a Coin Vector is an ordered-by-denomination
mapping from denomination to non-negative amount; no zero entries persist. -/
abbrev Coins := List Coin

/-- Modelled from the spec: a Fractional Coin Vector; the amount is a
fixed-point fractional value counted in units of `10 ^ -18`. -/
abbrev DecCoins := List Coin

/-- Insert an amount `a > 0` of denomination `d` into a coin list, merging
with an existing entry of the same denomination and keeping the list
ordered by denomination. -/
def insertCoin (d : String) (a : Nat) : List Coin → List Coin
  | [] => [⟨d, a⟩]
  | c :: cs =>
    if denomLtb d c.denom then ⟨d, a⟩ :: c :: cs
    else if d = c.denom then ⟨d, a + c.amount⟩ :: cs
    else c :: insertCoin d a cs

/-- Add one coin to a coin list, dropping it when its amount is zero. -/
def addCoin (cs : List Coin) (c : Coin) : List Coin :=
  if c.amount = 0 then cs else insertCoin c.denom c.amount cs

/-- Modelled from the spec: Coin Vector addition is per-denomination,
merging entries and dropping zero results (`sdk.Coins.Add`). -/
def coinsAdd (a b : List Coin) : List Coin := b.foldl addCoin a

/-- Modelled from the spec: Coin Vector equality is structural — same
denominations, same amounts (`sdk.Coins.IsEqual`). -/
def coinsIsEqual (a b : List Coin) : Bool := a == b

/-- Modelled from the spec: `sdk.NewCoins` sanitises its input so that no
zero entry persists. -/
def newCoins (l : List Coin) : List Coin := coinsAdd [] l

/-- One whole unit expressed in the `10 ^ -18` fixed-point scale of
fractional amounts. -/
def decUnit : Nat := 1000000000000000000

/-- Modelled from the spec: truncation of a Fractional Coin Vector into its
whole part (an integer Coin Vector) and its sub-unit remainder, such that
`whole + remainder` equals the input exactly and the remainder is strictly
less than one unit per denomination (`sdk.DecCoins.TruncateDecimal`). -/
def truncateDecimal (dcs : DecCoins) : Coins × DecCoins :=
  (dcs.filterMap fun c =>
      if c.amount / decUnit = 0 then none else some ⟨c.denom, c.amount / decUnit⟩,
   dcs.filterMap fun c =>
      if c.amount % decUnit = 0 then none else some ⟨c.denom, c.amount % decUnit⟩)

/-- The vesting capability of an account (`auth.VestingAccount`): the
original vesting grant and the vesting end time (Unix seconds). -/
structure VestingInfo where
  originalVesting : Coins
  endTime : Int
  deriving DecidableEq

/-- An account record (`auth.Account`): its held coins, whether it
type-asserts to `auth.ModuleAccount`, and whether it type-asserts to
`auth.VestingAccount` (and with which vesting data). -/
structure Account where
  coins : Coins
  isModuleAccount : Bool
  vesting : Option VestingInfo
  deriving DecidableEq

/-- The three running sums of the account aggregation pass inside
`SupplierInvariants`. -/
structure AggState where
  circulatingAmount : Coins
  modulesAmount : Coins
  initialVestingAmount : Coins
  deriving DecidableEq

/-- The body of the `IterateAccounts` callback in `SupplierInvariants`: a
vesting-capable account whose end time is strictly after the block time
contributes its original vesting to `initialVestingAmount`; a module
account's coins go to `modulesAmount`, any other account's coins go to
`circulatingAmount`.  The returned boolean is the callback's `return
false` (do not stop iterating). -/
def supplierProcess (blockTime : Int) (st : AggState) (acc : Account) :
    AggState × Bool :=
  let st1 :=
    match acc.vesting with
    | some v =>
      if blockTime < v.endTime then
        { st with initialVestingAmount :=
            coinsAdd st.initialVestingAmount v.originalVesting }
      else st
    | none => st
  let st2 :=
    if acc.isModuleAccount then
      { st1 with modulesAmount := coinsAdd st1.modulesAmount acc.coins }
    else
      { st1 with circulatingAmount := coinsAdd st1.circulatingAmount acc.coins }
  (st2, false)

/-- The account-iteration primitive (`AccountKeeper.IterateAccounts`): the
callback is applied to each account in turn, and iteration stops early as
soon as the callback returns `true`. -/
def iterateAccounts (process : AggState → Account → AggState × Bool) :
    List Account → AggState → AggState
  | [], st => st
  | a :: rest, st =>
    let r := process st a
    if r.2 then r.1 else iterateAccounts process rest r.1

/-- The full aggregation pass of `SupplierInvariants`: iterate all accounts
starting from three empty sums. -/
def supplierAggregate (blockTime : Int) (accs : List Account) : AggState :=
  iterateAccounts (supplierProcess blockTime) accs ⟨[], [], []⟩

/-- The persisted `Supplier` summary record. -/
structure Supplier where
  circulatingSupply : Coins
  initialVestingSupply : Coins
  modulesSupply : Coins
  totalSupply : Coins
  deriving DecidableEq

/-- A structured invariant violation: which field diverged, carrying the
recorded value and the recomputed value (the two values interpolated into
the `fmt.Errorf` message of the source). -/
inductive InvariantError where
  | circulating (recorded computed : Coins)
  | modules (recorded computed : Coins)
  | vesting (recorded computed : Coins)
  | totalSupply (recorded computed : Coins)
  deriving DecidableEq

/-- `SupplierInvariants`: aggregate all accounts, then compare the three
recorded supplier fields against the three computed sums, in source order
(circulating, then modules, then vesting); `none` is the nil error. -/
def supplierInvariants (supplier : Supplier) (blockTime : Int)
    (accs : List Account) : Option InvariantError :=
  let agg := supplierAggregate blockTime accs
  if ¬ coinsIsEqual supplier.circulatingSupply agg.circulatingAmount then
    some (.circulating supplier.circulatingSupply agg.circulatingAmount)
  else if ¬ coinsIsEqual supplier.modulesSupply agg.modulesAmount then
    some (.modules supplier.modulesSupply agg.modulesAmount)
  else if ¬ coinsIsEqual supplier.initialVestingSupply agg.initialVestingAmount then
    some (.vesting supplier.initialVestingSupply agg.initialVestingAmount)
  else
    none

/-- The `realTotalSupply` computed inside `TotalSupplyInvariant`:
circulating + modules + bonded + fees + truncated community pool +
truncated rewards + the whole part of the truncated sum of the two
truncation remainders. -/
def reconstructedTotalSupply (supplier : Supplier) (bondDenom : String)
    (totalBondedTokens : Nat) (collectedFees : Coins)
    (communityCoins rewardCoins : DecCoins) : Coins :=
  let bondedSupply := newCoins [⟨bondDenom, totalBondedTokens⟩]
  let tc := truncateDecimal communityCoins
  let tr := truncateDecimal rewardCoins
  let remaining := (truncateDecimal (coinsAdd tc.2 tr.2)).1
  coinsAdd (coinsAdd (coinsAdd (coinsAdd (coinsAdd
    (coinsAdd supplier.circulatingSupply supplier.modulesSupply)
    bondedSupply) collectedFees) tc.1) tr.1) remaining

/-- `TotalSupplyInvariant`: compare the persisted `TotalSupply` with the
reconstructed total; on mismatch report both values. -/
def totalSupplyInvariant (supplier : Supplier) (bondDenom : String)
    (totalBondedTokens : Nat) (collectedFees : Coins)
    (communityCoins rewardCoins : DecCoins) : Option InvariantError :=
  let real := reconstructedTotalSupply supplier bondDenom totalBondedTokens
    collectedFees communityCoins rewardCoins
  if ¬ coinsIsEqual supplier.totalSupply real then
    some (.totalSupply supplier.totalSupply real)
  else
    none

/-- A read-only snapshot of everything the two checks read through the
keepers: the supplier record, the block timestamp, the account population,
and the external pool readings. -/
structure Snapshot where
  supplier : Supplier
  blockTime : Int
  accounts : List Account
  bondDenom : String
  totalBondedTokens : Nat
  collectedFees : Coins
  communityCoins : DecCoins
  rewardCoins : DecCoins
  deriving DecidableEq

/-- Run the supplier check against a snapshot. -/
def runSupplierInvariants (s : Snapshot) : Option InvariantError :=
  supplierInvariants s.supplier s.blockTime s.accounts

/-- Run the total-supply check against a snapshot. -/
def runTotalSupplyInvariant (s : Snapshot) : Option InvariantError :=
  totalSupplyInvariant s.supplier s.bondDenom s.totalBondedTokens
    s.collectedFees s.communityCoins s.rewardCoins

/-- `AllInvariants`: run the supplier check first; if it fails return its
error, otherwise return the outcome of the total-supply check. -/
def allInvariants (s : Snapshot) : Option InvariantError :=
  match runSupplierInvariants s with
  | some e => some e
  | none => runTotalSupplyInvariant s

/-! ## Pointwise amounts and the canonical form of Coin Vectors -/

/-- The total amount of denomination `d` contained in a coin list. -/
def amountOf : List Coin → String → Nat
  | [], _ => 0
  | c :: cs, d => (if c.denom = d then c.amount else 0) + amountOf cs d

/-- A coin list is canonical when it is strictly sorted by denomination and
every amount is positive; this is the Coin Vector invariant of the spec. -/
def Canonical (cs : List Coin) : Prop :=
  List.Pairwise (fun a b => denomLtb a.denom b.denom = true) cs ∧
    ∀ c ∈ cs, 0 < c.amount

theorem lexLtb_irrefl (l : List Char) : lexLtb l l = false := by
  induction l with
  | nil => rfl
  | cons a as ih => simp [lexLtb, ih]

theorem lexLtb_trans : ∀ {a b c : List Char},
    lexLtb a b = true → lexLtb b c = true → lexLtb a c = true
  | [], [], _ :: _, h, _ => by cases h
  | [], _ :: _, [], _, h => by cases h
  | [], _ :: _, _ :: _, _, _ => rfl
  | _ :: _, [], _, h, _ => by cases h
  | _ :: _, _ :: _, [], _, h => by cases h
  | x :: xs, y :: ys, z :: zs, h1, h2 => by
    simp only [lexLtb, Bool.or_eq_true, Bool.and_eq_true, decide_eq_true_eq] at h1 h2 ⊢
    rcases h1 with h1 | ⟨h1e, h1t⟩
    · rcases h2 with h2 | ⟨h2e, _⟩
      · exact Or.inl (Nat.lt_trans h1 h2)
      · exact Or.inl (h2e ▸ h1)
    · rcases h2 with h2 | ⟨h2e, h2t⟩
      · exact Or.inl (h1e ▸ h2)
      · exact Or.inr ⟨h1e.trans h2e, lexLtb_trans h1t h2t⟩

theorem eq_of_lexLtb_false : ∀ {a b : List Char},
    lexLtb a b = false → lexLtb b a = false → a = b
  | [], [], _, _ => rfl
  | [], _ :: _, h, _ => by cases h
  | _ :: _, [], _, h => by cases h
  | x :: xs, y :: ys, h1, h2 => by
    simp only [lexLtb, Bool.or_eq_false_iff, Bool.and_eq_false_iff,
      decide_eq_false_iff_not, Nat.not_lt] at h1 h2
    have hxy : x.toNat = y.toNat := Nat.le_antisymm h2.1 h1.1
    have hx : x = y := Char.ext (UInt32.ext hxy)
    rcases h1.2 with h | h
    · exact absurd hxy (by simpa using h)
    · rcases h2.2 with h' | h'
      · exact absurd hxy.symm (by simpa using h')
      · exact hx ▸ congrArg (x :: ·) (eq_of_lexLtb_false h h')

theorem denomLtb_irrefl (s : String) : denomLtb s s = false :=
  lexLtb_irrefl s.data

theorem denomLtb_trans {a b c : String} (h1 : denomLtb a b = true)
    (h2 : denomLtb b c = true) : denomLtb a c = true :=
  lexLtb_trans h1 h2

theorem eq_of_denomLtb_false {a b : String} (h1 : denomLtb a b = false)
    (h2 : denomLtb b a = false) : a = b :=
  String.ext (eq_of_lexLtb_false h1 h2)

theorem ne_of_denomLtb {a b : String} (h : denomLtb a b = true) : a ≠ b := by
  intro he
  rw [he, denomLtb_irrefl] at h
  cases h

theorem denomLtb_total {a b : String} (h1 : denomLtb a b = false)
    (h2 : a ≠ b) : denomLtb b a = true := by
  cases hba : denomLtb b a with
  | true => rfl
  | false => exact absurd (eq_of_denomLtb_false h1 hba) h2

theorem amountOf_insertCoin (d : String) (a : Nat) (cs : List Coin)
    (d' : String) :
    amountOf (insertCoin d a cs) d' =
      (if d = d' then a else 0) + amountOf cs d' := by
  induction cs with
  | nil => simp [insertCoin, amountOf]
  | cons c cs ih =>
    by_cases hlt : denomLtb d c.denom = true
    · simp [insertCoin, hlt, amountOf]
    · by_cases he : d = c.denom
      · subst he
        simp only [insertCoin, denomLtb_irrefl, Bool.false_eq_true, if_false]
        by_cases hd : c.denom = d'
        · simp only [amountOf, hd, eq_self_iff_true, if_true, if_pos rfl]
          omega
        · simp [amountOf, hd]
      · simp only [insertCoin, hlt, Bool.false_eq_true, if_false, if_neg he,
          amountOf, ih]
        omega

theorem amountOf_addCoin (cs : List Coin) (c : Coin) (d : String) :
    amountOf (addCoin cs c) d =
      amountOf cs d + (if c.denom = d then c.amount else 0) := by
  unfold addCoin
  by_cases h0 : c.amount = 0
  · simp [h0]
  · rw [if_neg h0, amountOf_insertCoin]
    omega

theorem amountOf_coinsAdd (a b : List Coin) (d : String) :
    amountOf (coinsAdd a b) d = amountOf a d + amountOf b d := by
  induction b generalizing a with
  | nil => simp [coinsAdd, amountOf]
  | cons c b ih =>
    show amountOf (coinsAdd (addCoin a c) b) d = _
    rw [ih, amountOf_addCoin]
    simp [amountOf]
    omega

theorem mem_insertCoin {e : Coin} {d : String} {a : Nat} :
    ∀ {cs : List Coin}, e ∈ insertCoin d a cs → e.denom = d ∨ e ∈ cs
  | [], h => by
    simp [insertCoin] at h
    exact Or.inl (by simp [h])
  | c :: cs, h => by
    by_cases hlt : denomLtb d c.denom = true
    · simp only [insertCoin, hlt, if_true, List.mem_cons] at h
      rcases h with h | h
      · exact Or.inl (by simp [h])
      · exact Or.inr (List.mem_cons.mpr h)
    · by_cases he : d = c.denom
      · simp only [insertCoin, hlt, Bool.false_eq_true, if_false, if_pos he,
          List.mem_cons] at h
        rcases h with h | h
        · exact Or.inl (by simp [h])
        · exact Or.inr (List.mem_cons_of_mem _ h)
      · simp only [insertCoin, hlt, Bool.false_eq_true, if_false, if_neg he,
          List.mem_cons] at h
        rcases h with h | h
        · exact Or.inr (by simp [h])
        · rcases mem_insertCoin h with h' | h'
          · exact Or.inl h'
          · exact Or.inr (List.mem_cons_of_mem _ h')

theorem amount_mem_insertCoin {e : Coin} {d : String} {a : Nat}
    (ha : 0 < a) :
    ∀ {cs : List Coin}, (∀ c ∈ cs, 0 < c.amount) → e ∈ insertCoin d a cs →
      0 < e.amount
  | [], _, h => by
    simp [insertCoin] at h
    simp [h, ha]
  | c :: cs, hpos, h => by
    by_cases hlt : denomLtb d c.denom = true
    · simp only [insertCoin, hlt, if_true, List.mem_cons] at h
      rcases h with h | h
      · simp [h, ha]
      · exact hpos _ (List.mem_cons.mpr h)
    · by_cases he : d = c.denom
      · simp only [insertCoin, hlt, Bool.false_eq_true, if_false, if_pos he,
          List.mem_cons] at h
        rcases h with h | h
        · simp [h]; omega
        · exact hpos _ (List.mem_cons_of_mem _ h)
      · simp only [insertCoin, hlt, Bool.false_eq_true, if_false, if_neg he,
          List.mem_cons] at h
        rcases h with h | h
        · exact hpos _ (by simp [h])
        · exact amount_mem_insertCoin ha
            (fun c hc => hpos _ (List.mem_cons_of_mem _ hc)) h

theorem canonical_insertCoin {cs : List Coin} (h : Canonical cs)
    {d : String} {a : Nat} (ha : 0 < a) : Canonical (insertCoin d a cs) := by
  induction cs with
  | nil =>
    exact ⟨List.pairwise_singleton _ _, by simp [insertCoin, ha]⟩
  | cons c cs ih =>
    obtain ⟨hp, hpos⟩ := h
    rw [List.pairwise_cons] at hp
    by_cases hlt : denomLtb d c.denom = true
    · refine ⟨?_, ?_⟩
      · simp only [insertCoin, hlt, if_true]
        rw [List.pairwise_cons]
        refine ⟨?_, List.pairwise_cons.mpr hp⟩
        intro e he
        rcases List.mem_cons.mp he with he | he
        · simpa [he] using hlt
        · exact denomLtb_trans hlt (hp.1 e he)
      · intro e he
        simp only [insertCoin, hlt, if_true] at he
        rcases List.mem_cons.mp he with he | he
        · simp [he, ha]
        · exact hpos e he
    · by_cases he : d = c.denom
      · subst he
        refine ⟨?_, ?_⟩
        · simp only [insertCoin, denomLtb_irrefl, Bool.false_eq_true, if_false,
            eq_self_iff_true, if_true]
          rw [List.pairwise_cons]
          exact ⟨fun e hme => hp.1 e hme, hp.2⟩
        · intro e hme
          simp only [insertCoin, denomLtb_irrefl, Bool.false_eq_true, if_false,
            eq_self_iff_true, if_true] at hme
          rcases List.mem_cons.mp hme with hme | hme
          · simp [hme]; omega
          · exact hpos e (List.mem_cons_of_mem _ hme)
      · have hgt : denomLtb c.denom d = true := denomLtb_total
          (by simpa using hlt) he
        have hcan : Canonical cs :=
          ⟨hp.2, fun e hme => hpos e (List.mem_cons_of_mem _ hme)⟩
        obtain ⟨ihp, ihpos⟩ := ih hcan
        refine ⟨?_, ?_⟩
        · simp only [insertCoin, hlt, Bool.false_eq_true, if_false, if_neg he]
          rw [List.pairwise_cons]
          refine ⟨?_, ihp⟩
          intro e hme
          rcases mem_insertCoin hme with h' | h'
          · exact h' ▸ hgt
          · exact hp.1 e h'
        · intro e hme
          simp only [insertCoin, hlt, Bool.false_eq_true, if_false,
            if_neg he] at hme
          rcases List.mem_cons.mp hme with hme | hme
          · exact hpos _ (by simp [hme])
          · exact ihpos e hme

theorem canonical_addCoin {cs : List Coin} (h : Canonical cs) (c : Coin) :
    Canonical (addCoin cs c) := by
  unfold addCoin
  by_cases h0 : c.amount = 0
  · simpa [h0] using h
  · rw [if_neg h0]
    exact canonical_insertCoin h (Nat.pos_of_ne_zero h0)

theorem canonical_coinsAdd {a : List Coin} (h : Canonical a)
    (b : List Coin) : Canonical (coinsAdd a b) := by
  induction b generalizing a with
  | nil => exact h
  | cons c b ih => exact ih (canonical_addCoin h c)

theorem canonical_nil : Canonical [] := ⟨List.Pairwise.nil, by simp⟩

theorem amountOf_eq_zero_of_forall_ne {cs : List Coin} {d : String}
    (h : ∀ c ∈ cs, c.denom ≠ d) : amountOf cs d = 0 := by
  induction cs with
  | nil => rfl
  | cons c cs ih =>
    simp only [amountOf, if_neg (h c (List.mem_cons_self c cs)), Nat.zero_add]
    exact ih fun e he => h e (List.mem_cons_of_mem _ he)

theorem amountOf_cons_head {c : Coin} {cs : List Coin}
    (h : Canonical (c :: cs)) : amountOf (c :: cs) c.denom = c.amount := by
  have : amountOf cs c.denom = 0 := by
    apply amountOf_eq_zero_of_forall_ne
    intro e he
    exact (ne_of_denomLtb ((List.pairwise_cons.mp h.1).1 e he)).symm
  simp [amountOf, this]

theorem amountOf_eq_zero_of_lt {c : Coin} {cs : List Coin} {d : String}
    (h : Canonical (c :: cs)) (hlt : denomLtb d c.denom = true) :
    amountOf (c :: cs) d = 0 := by
  apply amountOf_eq_zero_of_forall_ne
  intro e he
  rcases List.mem_cons.mp he with he | he
  · exact he ▸ fun hc => ne_of_denomLtb hlt hc.symm
  · exact fun hc => ne_of_denomLtb
      (denomLtb_trans hlt ((List.pairwise_cons.mp h.1).1 e he)) hc.symm

theorem canonical_ext : ∀ {a b : List Coin}, Canonical a → Canonical b →
    (∀ d, amountOf a d = amountOf b d) → a = b
  | [], [], _, _, _ => rfl
  | [], c :: t, _, hb, h => by
    have := h c.denom
    rw [amountOf_cons_head hb] at this
    exact absurd this.symm (Nat.ne_of_gt (hb.2 c (List.mem_cons_self c t)))
  | c :: t, [], ha, _, h => by
    have := h c.denom
    rw [amountOf_cons_head ha] at this
    exact absurd this (Nat.ne_of_gt (ha.2 c (List.mem_cons_self c t)))
  | c1 :: t1, c2 :: t2, ha, hb, h => by
    have hde : c1.denom = c2.denom := by
      by_cases h12 : denomLtb c1.denom c2.denom = true
      · have h1 := h c1.denom
        rw [amountOf_cons_head ha, amountOf_eq_zero_of_lt hb h12] at h1
        exact absurd h1 (Nat.ne_of_gt (ha.2 c1 (List.mem_cons_self c1 t1)))
      · by_cases h21 : denomLtb c2.denom c1.denom = true
        · have h2 := h c2.denom
          rw [amountOf_cons_head hb, amountOf_eq_zero_of_lt ha h21] at h2
          exact absurd h2.symm
            (Nat.ne_of_gt (hb.2 c2 (List.mem_cons_self c2 t2)))
        · exact eq_of_denomLtb_false (by simpa using h12) (by simpa using h21)
    have ht1 : Canonical t1 :=
      ⟨(List.pairwise_cons.mp ha.1).2,
        fun e he => ha.2 e (List.mem_cons_of_mem _ he)⟩
    have ht2 : Canonical t2 :=
      ⟨(List.pairwise_cons.mp hb.1).2,
        fun e he => hb.2 e (List.mem_cons_of_mem _ he)⟩
    have hz1 : amountOf t1 c1.denom = 0 := by
      apply amountOf_eq_zero_of_forall_ne
      intro e he
      exact (ne_of_denomLtb ((List.pairwise_cons.mp ha.1).1 e he)).symm
    have hz2 : amountOf t2 c2.denom = 0 := by
      apply amountOf_eq_zero_of_forall_ne
      intro e he
      exact (ne_of_denomLtb ((List.pairwise_cons.mp hb.1).1 e he)).symm
    have hamt : c1.amount = c2.amount := by
      have h1 := h c1.denom
      simp only [amountOf, if_pos rfl, hde, if_pos rfl, hz1] at h1
      rw [← hde] at h1
      simpa [hz1, hde ▸ hz2] using h1
    have hcc : c1 = c2 := by
      cases c1; cases c2
      simp_all
    have htails : ∀ d, amountOf t1 d = amountOf t2 d := by
      intro d
      have hd := h d
      simp only [amountOf, hcc] at hd
      omega
    exact hcc ▸ congrArg (c1 :: ·) (canonical_ext ht1 ht2 htails)

/-! ## Structure of the aggregation pass -/

/-- Two aggregation states with equal fields are equal. -/
theorem aggState_eq {a b : AggState}
    (h1 : a.circulatingAmount = b.circulatingAmount)
    (h2 : a.modulesAmount = b.modulesAmount)
    (h3 : a.initialVestingAmount = b.initialVestingAmount) : a = b := by
  cases a; cases b; simp_all

theorem supplierProcess_snd (t : Int) (st : AggState) (acc : Account) :
    (supplierProcess t st acc).2 = false := by
  simp [supplierProcess]

/-- The full effect of one callback invocation on the aggregation state. -/
theorem supplierProcess_fst (t : Int) (st : AggState) (acc : Account) :
    (supplierProcess t st acc).1 =
      { circulatingAmount :=
          if acc.isModuleAccount then st.circulatingAmount
          else coinsAdd st.circulatingAmount acc.coins,
        modulesAmount :=
          if acc.isModuleAccount then coinsAdd st.modulesAmount acc.coins
          else st.modulesAmount,
        initialVestingAmount :=
          match acc.vesting with
          | some v =>
            if t < v.endTime then
              coinsAdd st.initialVestingAmount v.originalVesting
            else st.initialVestingAmount
          | none => st.initialVestingAmount } := by
  cases hv : acc.vesting <;> cases hm : acc.isModuleAccount <;>
    simp [supplierProcess, hv, hm, apply_ite, ite_self] <;>
    (split <;> intro h' <;> omega)

theorem iterateAccounts_cons (t : Int) (a : Account) (rest : List Account)
    (st : AggState) :
    iterateAccounts (supplierProcess t) (a :: rest) st =
      iterateAccounts (supplierProcess t) rest (supplierProcess t st a).1 := by
  simp [iterateAccounts, supplierProcess_snd]

/-- The per-account contribution to the still-locked vesting sum. -/
def vestContribution (t : Int) (acc : Account) (d : String) : Nat :=
  match acc.vesting with
  | some v => if t < v.endTime then amountOf v.originalVesting d else 0
  | none => 0

theorem iterate_circ_amount (t : Int) (accs : List Account) (st : AggState)
    (d : String) :
    amountOf (iterateAccounts (supplierProcess t) accs st).circulatingAmount d =
      amountOf st.circulatingAmount d +
        (accs.map fun a =>
          if a.isModuleAccount then 0 else amountOf a.coins d).sum := by
  induction accs generalizing st with
  | nil => simp [iterateAccounts]
  | cons a rest ih =>
    rw [iterateAccounts_cons, ih, supplierProcess_fst]
    cases hm : a.isModuleAccount <;> (simp [hm, amountOf_coinsAdd]; try omega)

theorem iterate_modules_amount (t : Int) (accs : List Account) (st : AggState)
    (d : String) :
    amountOf (iterateAccounts (supplierProcess t) accs st).modulesAmount d =
      amountOf st.modulesAmount d +
        (accs.map fun a =>
          if a.isModuleAccount then amountOf a.coins d else 0).sum := by
  induction accs generalizing st with
  | nil => simp [iterateAccounts]
  | cons a rest ih =>
    rw [iterateAccounts_cons, ih, supplierProcess_fst]
    cases hm : a.isModuleAccount <;> (simp [hm, amountOf_coinsAdd]; try omega)

theorem iterate_vesting_amount (t : Int) (accs : List Account) (st : AggState)
    (d : String) :
    amountOf
        (iterateAccounts (supplierProcess t) accs st).initialVestingAmount d =
      amountOf st.initialVestingAmount d +
        (accs.map fun a => vestContribution t a d).sum := by
  induction accs generalizing st with
  | nil => simp [iterateAccounts]
  | cons a rest ih =>
    rw [iterateAccounts_cons, ih, supplierProcess_fst]
    cases hv : a.vesting with
    | none => simp [vestContribution, hv]
    | some v =>
      by_cases ht : t < v.endTime <;>
        (simp [vestContribution, hv, ht, amountOf_coinsAdd]; try omega)

theorem canonical_iterate (t : Int) (accs : List Account) (st : AggState)
    (h1 : Canonical st.circulatingAmount) (h2 : Canonical st.modulesAmount)
    (h3 : Canonical st.initialVestingAmount) :
    Canonical (iterateAccounts (supplierProcess t) accs st).circulatingAmount ∧
    Canonical (iterateAccounts (supplierProcess t) accs st).modulesAmount ∧
    Canonical
      (iterateAccounts (supplierProcess t) accs st).initialVestingAmount := by
  induction accs generalizing st with
  | nil => exact ⟨h1, h2, h3⟩
  | cons a rest ih =>
    rw [iterateAccounts_cons]
    apply ih <;> rw [supplierProcess_fst]
    · cases hm : a.isModuleAccount <;>
        simp [hm, h1, canonical_coinsAdd h1]
    · cases hm : a.isModuleAccount <;>
        simp [hm, h2, canonical_coinsAdd h2]
    · cases hv : a.vesting with
      | none => simpa using h3
      | some v =>
        by_cases ht : t < v.endTime <;>
          simp [hv, ht, h3, canonical_coinsAdd h3]

theorem canonical_supplierAggregate (t : Int) (accs : List Account) :
    Canonical (supplierAggregate t accs).circulatingAmount ∧
    Canonical (supplierAggregate t accs).modulesAmount ∧
    Canonical (supplierAggregate t accs).initialVestingAmount :=
  canonical_iterate t accs ⟨[], [], []⟩ canonical_nil canonical_nil
    canonical_nil

theorem amountOf_foldl_coinsAdd (accs : List Account) (s : Coins)
    (d : String) :
    amountOf (accs.foldl (fun s a => coinsAdd s a.coins) s) d =
      amountOf s d + (accs.map fun a => amountOf a.coins d).sum := by
  induction accs generalizing s with
  | nil => simp
  | cons a rest ih =>
    rw [List.foldl_cons, ih, amountOf_coinsAdd]
    simp
    omega

theorem canonical_foldl_coinsAdd (accs : List Account) {s : Coins}
    (h : Canonical s) :
    Canonical (accs.foldl (fun s a => coinsAdd s a.coins) s) := by
  induction accs generalizing s with
  | nil => exact h
  | cons a rest ih => exact ih (canonical_coinsAdd h a.coins)

theorem split_module_sum (accs : List Account) (d : String) :
    (accs.map fun a =>
        if a.isModuleAccount then 0 else amountOf a.coins d).sum +
      (accs.map fun a =>
        if a.isModuleAccount then amountOf a.coins d else 0).sum =
      (accs.map fun a => amountOf a.coins d).sum := by
  induction accs with
  | nil => rfl
  | cons a rest ih =>
    simp only [List.map_cons, List.sum_cons]
    cases hma : a.isModuleAccount <;> simp [hma] <;> omega

/-! ## The claims -/

/-- C1: the total-supply check reconstructs
`CirculatingSupply + ModulesSupply + bondedStake + collectedFees +
communityWhole + rewardsWhole + carry`, where `communityWhole` and
`rewardsWhole` are the whole parts of truncating the community pool and
the pending rewards and `carry` is the whole part of truncating
`communityRemainder + rewardsRemainder`; it succeeds iff the persisted
`TotalSupply` is structurally equal to the reconstruction, and on mismatch
it reports both values. -/
theorem totalSupply_check_correct (supplier : Supplier) (bondDenom : String)
    (totalBondedTokens : Nat) (collectedFees : Coins)
    (communityCoins rewardCoins : DecCoins) :
    reconstructedTotalSupply supplier bondDenom totalBondedTokens
        collectedFees communityCoins rewardCoins =
      coinsAdd (coinsAdd (coinsAdd (coinsAdd (coinsAdd
        (coinsAdd supplier.circulatingSupply supplier.modulesSupply)
        (newCoins [⟨bondDenom, totalBondedTokens⟩])) collectedFees)
        (truncateDecimal communityCoins).1) (truncateDecimal rewardCoins).1)
        ((truncateDecimal (coinsAdd (truncateDecimal communityCoins).2
          (truncateDecimal rewardCoins).2)).1) ∧
    (totalSupplyInvariant supplier bondDenom totalBondedTokens collectedFees
        communityCoins rewardCoins = none ↔
      supplier.totalSupply = reconstructedTotalSupply supplier bondDenom
        totalBondedTokens collectedFees communityCoins rewardCoins) ∧
    (supplier.totalSupply ≠ reconstructedTotalSupply supplier bondDenom
        totalBondedTokens collectedFees communityCoins rewardCoins →
      totalSupplyInvariant supplier bondDenom totalBondedTokens collectedFees
          communityCoins rewardCoins =
        some (.totalSupply supplier.totalSupply
          (reconstructedTotalSupply supplier bondDenom totalBondedTokens
            collectedFees communityCoins rewardCoins))) := by
  refine ⟨rfl, ?_, ?_⟩ <;>
    by_cases h : supplier.totalSupply = reconstructedTotalSupply supplier
      bondDenom totalBondedTokens collectedFees communityCoins rewardCoins <;>
    simp [totalSupplyInvariant, coinsIsEqual, h]

theorem totalSupply_check_correct_witness :
    totalSupplyInvariant ⟨[], [], [], [⟨"atom", 7⟩]⟩ "atom" 5 [] [] [] =
      some (.totalSupply [⟨"atom", 7⟩] [⟨"atom", 5⟩]) :=
  (totalSupply_check_correct ⟨[], [], [], [⟨"atom", 7⟩]⟩ "atom" 5 [] []
    []).2.2 (by decide)

/-- C2: the supplier check succeeds iff all three recorded fields equal the
three aggregated sums; when a field differs the failure identifies that
field and carries both the recorded and the computed value, the checks
being tried in source order (circulating, modules, vesting). -/
theorem supplier_check_correct (supplier : Supplier) (t : Int)
    (accs : List Account) :
    (supplierInvariants supplier t accs = none ↔
      supplier.circulatingSupply =
          (supplierAggregate t accs).circulatingAmount ∧
      supplier.modulesSupply = (supplierAggregate t accs).modulesAmount ∧
      supplier.initialVestingSupply =
          (supplierAggregate t accs).initialVestingAmount) ∧
    (supplier.circulatingSupply ≠
        (supplierAggregate t accs).circulatingAmount →
      supplierInvariants supplier t accs =
        some (.circulating supplier.circulatingSupply
          (supplierAggregate t accs).circulatingAmount)) ∧
    (supplier.circulatingSupply =
        (supplierAggregate t accs).circulatingAmount →
      supplier.modulesSupply ≠ (supplierAggregate t accs).modulesAmount →
      supplierInvariants supplier t accs =
        some (.modules supplier.modulesSupply
          (supplierAggregate t accs).modulesAmount)) ∧
    (supplier.circulatingSupply =
        (supplierAggregate t accs).circulatingAmount →
      supplier.modulesSupply = (supplierAggregate t accs).modulesAmount →
      supplier.initialVestingSupply ≠
          (supplierAggregate t accs).initialVestingAmount →
      supplierInvariants supplier t accs =
        some (.vesting supplier.initialVestingSupply
          (supplierAggregate t accs).initialVestingAmount)) := by
  by_cases h1 : supplier.circulatingSupply =
      (supplierAggregate t accs).circulatingAmount <;>
  by_cases h2 : supplier.modulesSupply =
      (supplierAggregate t accs).modulesAmount <;>
  by_cases h3 : supplier.initialVestingSupply =
      (supplierAggregate t accs).initialVestingAmount <;>
  simp [supplierInvariants, coinsIsEqual, h1, h2, h3]

theorem supplier_check_correct_witness :
    supplierInvariants ⟨[⟨"atom", 99⟩], [], [⟨"atom", 50⟩], [⟨"atom", 150⟩]⟩ 0
        [⟨[⟨"atom", 100⟩], false, none⟩, ⟨[⟨"atom", 50⟩], true, none⟩] =
      some (.circulating [⟨"atom", 99⟩] [⟨"atom", 100⟩]) :=
  (supplier_check_correct
    ⟨[⟨"atom", 99⟩], [], [⟨"atom", 50⟩], [⟨"atom", 150⟩]⟩ 0
    [⟨[⟨"atom", 100⟩], false, none⟩, ⟨[⟨"atom", 50⟩], true, none⟩]).2.1
    (by decide)

/-- C3: a vesting-capable account contributes its `originalVestingAmount`
to the `initialVesting` sum exactly when its vesting end time is strictly
greater than the block time; if the end time is at or before the block
time it contributes nothing. -/
theorem vesting_contribution_correct (t : Int) (st : AggState)
    (acc : Account) (v : VestingInfo) (hv : acc.vesting = some v) :
    (v.endTime ≤ t →
      ((supplierProcess t st acc).1).initialVestingAmount =
        st.initialVestingAmount) ∧
    (t < v.endTime →
      ((supplierProcess t st acc).1).initialVestingAmount =
        coinsAdd st.initialVestingAmount v.originalVesting) := by
  rw [supplierProcess_fst]
  constructor <;> intro h
  · simp [hv, if_neg (not_lt.mpr h)]
  · simp [hv, if_pos h]

theorem vesting_contribution_correct_witness :
    ((supplierProcess 3 ⟨[], [], []⟩
        ⟨[], false, some ⟨[⟨"atom", 5⟩], 10⟩⟩).1).initialVestingAmount =
      coinsAdd [] [⟨"atom", 5⟩] :=
  (vesting_contribution_correct 3 ⟨[], [], []⟩
    ⟨[], false, some ⟨[⟨"atom", 5⟩], 10⟩⟩ ⟨[⟨"atom", 5⟩], 10⟩ rfl).2
    (by decide)

/-- C4: an account that is both module-owned and vesting-capable has its
held coins added to `modulesAmount` and not to `circulating`, while its
`originalVestingAmount` is still added to `initialVesting` when its end
time is strictly after the block time: the module/circulating split and
the vesting sum are computed independently. -/
theorem module_vesting_independent (t : Int) (st : AggState) (acc : Account)
    (v : VestingInfo) (hm : acc.isModuleAccount = true)
    (hv : acc.vesting = some v) :
    ((supplierProcess t st acc).1).modulesAmount =
        coinsAdd st.modulesAmount acc.coins ∧
    ((supplierProcess t st acc).1).circulatingAmount =
        st.circulatingAmount ∧
    (t < v.endTime →
      ((supplierProcess t st acc).1).initialVestingAmount =
        coinsAdd st.initialVestingAmount v.originalVesting) := by
  rw [supplierProcess_fst]
  refine ⟨by simp [hm], by simp [hm], fun h => by simp [hv, if_pos h]⟩

theorem module_vesting_independent_witness :
    ((supplierProcess 3 ⟨[], [], []⟩
        ⟨[⟨"atom", 7⟩], true, some ⟨[⟨"atom", 5⟩], 10⟩⟩).1).modulesAmount =
        coinsAdd [] [⟨"atom", 7⟩] ∧
    ((supplierProcess 3 ⟨[], [], []⟩
        ⟨[⟨"atom", 7⟩], true,
          some ⟨[⟨"atom", 5⟩], 10⟩⟩).1).initialVestingAmount =
        coinsAdd [] [⟨"atom", 5⟩] := by
  have h := module_vesting_independent 3 ⟨[], [], []⟩
    ⟨[⟨"atom", 7⟩], true, some ⟨[⟨"atom", 5⟩], 10⟩⟩ ⟨[⟨"atom", 5⟩], 10⟩
    rfl rfl
  exact ⟨h.1, h.2.2 (by decide)⟩

/-- C5: combining the community-pool remainder `0.6 X` with the rewards
remainder `0.5 X` and truncating the sum yields a carry of one whole unit
of `X` with `0.1 X` discarded, and the reconstructed total includes that
extra unit: community pool `2.6 X` and rewards `3.5 X` reconstruct to
`6 X`, not `5 X`. -/
theorem remainder_carry_example :
    truncateDecimal (coinsAdd [⟨"X", 600000000000000000⟩]
        [⟨"X", 500000000000000000⟩]) =
      ([⟨"X", 1⟩], [⟨"X", 100000000000000000⟩]) ∧
    truncateDecimal [⟨"X", 2600000000000000000⟩] =
      ([⟨"X", 2⟩], [⟨"X", 600000000000000000⟩]) ∧
    truncateDecimal [⟨"X", 3500000000000000000⟩] =
      ([⟨"X", 3⟩], [⟨"X", 500000000000000000⟩]) ∧
    reconstructedTotalSupply ⟨[], [], [], []⟩ "stake" 0 []
        [⟨"X", 2600000000000000000⟩] [⟨"X", 3500000000000000000⟩] =
      [⟨"X", 6⟩] := by
  refine ⟨by decide, by decide, by decide, by decide⟩

/-- C6: the aggregator's `circulating` and `modulesAmount` sums partition
the total holdings of the account population: their Coin Vector sum equals
the sum of every account's held coins, with nothing dropped and nothing
double-counted. -/
theorem circulating_add_modules_eq_total (t : Int) (accs : List Account) :
    coinsAdd (supplierAggregate t accs).circulatingAmount
        (supplierAggregate t accs).modulesAmount =
      accs.foldl (fun s a => coinsAdd s a.coins) [] := by
  obtain ⟨hc, hm, -⟩ := canonical_supplierAggregate t accs
  apply canonical_ext (canonical_coinsAdd hc _)
    (canonical_foldl_coinsAdd accs canonical_nil)
  intro d
  rw [amountOf_coinsAdd, amountOf_foldl_coinsAdd]
  simp only [supplierAggregate]
  rw [iterate_circ_amount, iterate_modules_amount]
  simpa [amountOf] using split_module_sum accs d

/-- C7: the three aggregated sums do not depend on the order in which the
iteration primitive yields the accounts: permuting the account population
produces a structurally equal aggregation state. -/
theorem aggregate_perm_invariant (t : Int) (accs1 accs2 : List Account)
    (h : accs1.Perm accs2) :
    supplierAggregate t accs1 = supplierAggregate t accs2 := by
  obtain ⟨hc1, hm1, hv1⟩ := canonical_supplierAggregate t accs1
  obtain ⟨hc2, hm2, hv2⟩ := canonical_supplierAggregate t accs2
  refine aggState_eq ?_ ?_ ?_
  · apply canonical_ext hc1 hc2
    intro d
    simp only [supplierAggregate]
    rw [iterate_circ_amount, iterate_circ_amount,
      (h.map fun a =>
        if a.isModuleAccount then 0 else amountOf a.coins d).sum_eq]
  · apply canonical_ext hm1 hm2
    intro d
    simp only [supplierAggregate]
    rw [iterate_modules_amount, iterate_modules_amount,
      (h.map fun a =>
        if a.isModuleAccount then amountOf a.coins d else 0).sum_eq]
  · apply canonical_ext hv1 hv2
    intro d
    simp only [supplierAggregate]
    rw [iterate_vesting_amount, iterate_vesting_amount,
      (h.map fun a => vestContribution t a d).sum_eq]

theorem aggregate_perm_invariant_witness :
    supplierAggregate 0
        [⟨[⟨"btc", 3⟩], true, none⟩, ⟨[⟨"atom", 100⟩], false, none⟩] =
      supplierAggregate 0
        [⟨[⟨"atom", 100⟩], false, none⟩, ⟨[⟨"btc", 3⟩], true, none⟩] :=
  aggregate_perm_invariant 0 _ _ (List.Perm.swap _ _ _)

/-- C8: both checks are deterministic and idempotent: they are pure
functions of the snapshot (which includes the supplied block timestamp),
so two runs against equal snapshots produce equal outcomes. -/
theorem checks_deterministic (s1 s2 : Snapshot) (h : s1 = s2) :
    runSupplierInvariants s1 = runSupplierInvariants s2 ∧
    runTotalSupplyInvariant s1 = runTotalSupplyInvariant s2 ∧
    allInvariants s1 = allInvariants s2 := by
  subst h
  exact ⟨rfl, rfl, rfl⟩

theorem checks_deterministic_witness :
    runSupplierInvariants
        ⟨⟨[], [], [], []⟩, 0, [], "atom", 0, [], [], []⟩ =
      runSupplierInvariants
        ⟨⟨[], [], [], []⟩, 0, [], "atom", 0, [], [], []⟩ :=
  (checks_deterministic ⟨⟨[], [], [], []⟩, 0, [], "atom", 0, [], [], []⟩
    ⟨⟨[], [], [], []⟩, 0, [], "atom", 0, [], [], []⟩ rfl).1

/-- C9: the aggregation callback always returns `false` (never requests
early termination), so the iteration with early-stop semantics degenerates
to a fold that processes every account in the population. -/
theorem iteration_never_stops (t : Int) (st : AggState) (acc : Account)
    (accs : List Account) :
    (supplierProcess t st acc).2 = false ∧
    iterateAccounts (supplierProcess t) accs st =
      accs.foldl (fun s a => (supplierProcess t s a).1) st := by
  refine ⟨supplierProcess_snd t st acc, ?_⟩
  induction accs generalizing st with
  | nil => rfl
  | cons a rest ih => rw [iterateAccounts_cons, List.foldl_cons, ih]

/-- C10: `AllInvariants` succeeds iff both checks succeed; when the
supplier check fails its error is returned and takes precedence, the
total-supply check never overriding it. -/
theorem allInvariants_correct (s : Snapshot) :
    (allInvariants s = none ↔
      runSupplierInvariants s = none ∧ runTotalSupplyInvariant s = none) ∧
    ∀ e, runSupplierInvariants s = some e → allInvariants s = some e := by
  unfold allInvariants
  cases h : runSupplierInvariants s <;> simp [h]

theorem allInvariants_correct_witness :
    allInvariants ⟨⟨[⟨"atom", 99⟩], [], [], []⟩, 0,
        [⟨[⟨"atom", 100⟩], false, none⟩], "atom", 0, [], [], []⟩ =
      some (.circulating [⟨"atom", 99⟩] [⟨"atom", 100⟩]) :=
  (allInvariants_correct ⟨⟨[⟨"atom", 99⟩], [], [], []⟩, 0,
      [⟨[⟨"atom", 100⟩], false, none⟩], "atom", 0, [], [], []⟩).2
    (.circulating [⟨"atom", 99⟩] [⟨"atom", 100⟩]) (by decide)

end Supply
